import Mathlib

/-!
Verification of `convert.py` (WRF-ADIOS2-to-NetCDF4): a shallow embedding of
the conversion engine — the domain decomposition (`Locate`, `decomp`), the
serial and parallel step-copy loops (`r_w_data_serial`, `r_w_data_parallel`),
the metadata phase (`r_attrs`, `r_metadata`'s type map and dimension-name
reversal) and the destination schema builders (`create_nc_dims`,
`create_nc_vars`) — together with theorems settling the specification claims.
-/

namespace Convert

/-- Python `Locate(rank, nproc, datasize)`: block decomposition of a 1-D
extent.  `extra = datasize % nproc` only for the last rank;
`num = datasize // nproc`; returns `(num * rank, num + extra)`. -/
def Locate (rank nproc datasize : ℕ) : ℕ × ℕ :=
  let extra := if rank = nproc - 1 then datasize % nproc else 0
  let num := datasize / nproc
  (num * rank, num + extra)

/-- Start offset assigned by `Locate` to `rank` for extent `datasize`. -/
def locStart (datasize nproc rank : ℕ) : ℕ := (Locate rank nproc datasize).1

/-- Extent count assigned by `Locate` to `rank` for extent `datasize`. -/
def locCount (datasize nproc rank : ℕ) : ℕ := (Locate rank nproc datasize).2

theorem locStart_eq (L W r : ℕ) : locStart L W r = L / W * r := rfl

theorem locCount_eq (L W r : ℕ) :
    locCount L W r = L / W + (if r = W - 1 then L % W else 0) := rfl

/-- `np.argmax` on a list of naturals: index of the first occurrence of the
maximum (`np.argmax` breaks ties by first occurrence). -/
def argmaxIdx : List ℕ → ℕ
  | [] => 0
  | x :: xs =>
    let j := argmaxIdx xs
    if xs.getD j 0 > x then j + 1 else 0

/-- `np.zeros_like(dshape)` for an integer shape list. -/
def zerosLike (shape : List ℕ) : List ℕ := shape.map (fun _ => 0)

/-- Python `decomp(var, vars)` with the shape already parsed into a list and
the MPI rank/world-size passed explicitly: find the largest axis; if its
extent is `< 50` return the full-range plan, otherwise split that axis with
`Locate` and keep every other axis whole. -/
def decomp (shape : List ℕ) (rank size : ℕ) : List ℕ × List ℕ :=
  let maxInd := argmaxIdx shape
  if shape.getD maxInd 0 < 50 then
    (zerosLike shape, shape)
  else
    let sc := Locate rank size (shape.getD maxInd 0)
    ((zerosLike shape).set maxInd sc.1, shape.set maxInd sc.2)

/-- Membership of a multi-dimensional destination index in the region
addressed by a `start`/`count` pair — one slice per axis, as in the NetCDF
assignment `v[step, s0:s0+c0, s1:s1+c1, ...]`. -/
def inRegion (start count idx : List ℕ) : Bool :=
  (idx.length == start.length) &&
  (List.range idx.length).all fun i =>
    decide (start.getD i 0 ≤ idx.getD i 0 ∧
            idx.getD i 0 < start.getD i 0 + count.getD i 0)

/-- One NetCDF region assignment `v[step, slices] = data`: positions of the
given step inside the region take the written values, everything else keeps
its previous content.  `data` is addressed by the global destination index,
matching a slab read at the same `start`/`count` offsets. -/
def writeRegion {α : Type _} (dst : ℕ → List ℕ → α) (step : ℕ) (start count : List ℕ)
    (data : List ℕ → α) : ℕ → List ℕ → α :=
  fun s idx =>
    if s = step ∧ inRegion start count idx = true then data idx else dst s idx

/-- One step of the serial copy loop for a non-string variable
(`r_w_data_serial`): full read `data = adios2f.read(var)`, then either the
scalar write `v[step] = data` when the data is a single-element 1-D value,
or the full slice write `v[step, :] = data`. -/
def r_w_step_serial {α : Type _} (shape : List ℕ) (step : ℕ) (d : ℕ → List ℕ → α)
    (dst : ℕ → List ℕ → α) : ℕ → List ℕ → α :=
  if shape.length = 1 ∧ shape.getD 0 0 = 1 then
    writeRegion dst step (zerosLike shape) shape (fun _ => d step (zerosLike shape))
  else
    writeRegion dst step (zerosLike shape) shape (d step)

/-- One step of the parallel copy loop for a non-string variable
(`r_w_data_parallel`): slab read `data = adios2f.read(var, start, count)`
(so the data is the source values on the rank's region), then the scalar
write `v[step] = data` (which broadcasts the single element over the whole
row) when the data is a single-element 1-D value, the slab slice write for
1, 2 or 3 axes, and no write at all otherwise. -/
def r_w_step_parallel {α : Type _} (shape : List ℕ) (size rank step : ℕ) (d : ℕ → List ℕ → α)
    (dst : ℕ → List ℕ → α) : ℕ → List ℕ → α :=
  if (decomp shape rank size).2.length = 1 ∧ (decomp shape rank size).2.getD 0 0 = 1 then
    writeRegion dst step (zerosLike shape) shape (fun _ => d step (decomp shape rank size).1)
  else if (decomp shape rank size).2.length = 3 ∨ (decomp shape rank size).2.length = 2 ∨
      (decomp shape rank size).2.length = 1 then
    writeRegion dst step (decomp shape rank size).1 (decomp shape rank size).2 (d step)
  else dst

/-- `r_w_data_serial` restricted to one non-string array variable: the loop
over steps of serial per-step writes. -/
def r_w_data_serial {α : Type _} (shape : List ℕ) (numSteps : ℕ) (d : ℕ → List ℕ → α)
    (dst0 : ℕ → List ℕ → α) : ℕ → List ℕ → α :=
  (List.range numSteps).foldl (fun dst step => r_w_step_serial shape step d dst) dst0

/-- `r_w_data_parallel` restricted to one non-string array variable: the loop
over steps, with every rank's collective write of its slab combined (ranks in
increasing order). -/
def r_w_data_parallel {α : Type _} (shape : List ℕ) (size numSteps : ℕ) (d : ℕ → List ℕ → α)
    (dst0 : ℕ → List ℕ → α) : ℕ → List ℕ → α :=
  (List.range numSteps).foldl (fun dst step =>
    (List.range size).foldl
      (fun dst2 rank => r_w_step_parallel shape size rank step d dst2) dst) dst0

/-- The string-variable branch of `r_w_data_serial`: per step,
`data = adios2f.read_string(var); netcdff.variables[var][step, :] = data`. -/
def r_w_string_serial {σ : Type _} (numSteps : ℕ) (sdata : ℕ → σ) (dst0 : ℕ → Option σ) :
    ℕ → Option σ :=
  (List.range numSteps).foldl
    (fun dst step s => if s = step then some (sdata step) else dst s) dst0

/-- The string-variable branch of `r_w_data_parallel`: textually the same
per-step read and write as the serial branch, issued by every rank. -/
def r_w_string_parallel {σ : Type _} (numSteps : ℕ) (sdata : ℕ → σ) (dst0 : ℕ → Option σ) :
    ℕ → Option σ :=
  (List.range numSteps).foldl
    (fun dst step s => if s = step then some (sdata step) else dst s) dst0

/-- Python `s.startswith(pat)` over character lists. -/
def listStarts : List Char → List Char → Bool
  | [], _ => true
  | _ :: _, [] => false
  | p :: ps, c :: cs => p == c && listStarts ps cs

/-- Python `pat in s` (substring containment) over character lists. -/
def listHasSub (pat : List Char) : List Char → Bool
  | [] => listStarts pat []
  | c :: rest => listStarts pat (c :: rest) || listHasSub pat rest

/-- Python `pat in s` on strings. -/
def strHasSub (pat s : String) : Bool := listHasSub pat.data s.data

/-- Python `s.startswith(pat)` on strings. -/
def strStarts (pat s : String) : Bool := listStarts pat.data s.data

/-- Python `s.split("/")` over character lists. -/
def splitOnSlash : List Char → List (List Char)
  | [] => [[]]
  | c :: rest =>
    let r := splitOnSlash rest
    if c = '/' then [] :: r
    else (c :: r.headD []) :: r.tail

/-- Python `s.split("/")` on strings. -/
def strSplitSlash (s : String) : List String := (splitOnSlash s.data).map String.mk

/-- The string `v ++ "/" ++ a`, built at the character-list level. -/
def joinSlash (v a : String) : String := String.mk (v.data ++ '/' :: a.data)

/-- The attribute-value read of `r_attrs`: `read_attribute(attr)` first and,
on `ValueError` (modelled as `none`), the `read_attribute_string(attr)`
fallback. -/
def readVal {α : Type _} (typedRead : String → Option α) (stringRead : String → α)
    (key : String) : α :=
  match typedRead key with
  | some v => v
  | none => stringRead key

/-- The two dictionaries `r_attrs` builds: `var_attrs` flattened to
(variable, attribute-name, value) entries and `global_attrs` to
(key, value) entries, both in insertion order. -/
structure AttrsResult (α : Type _) where
  varAttrs : List (String × String × α)
  globalAttrs : List (String × α)
deriving DecidableEq

/-- One iteration of the `r_attrs` loop over attribute keys: skip any key
containing `"/Dims"`; read the value (typed read with string fallback); a
key containing `"/"` is unpacked as `<var>/<name>` into a variable-bound
attribute (a key with more than one `"/"` makes the two-element unpacking
raise, modelled as an error); a remaining key is global unless it starts
with the `"_DIM_"` dimension marker. -/
def r_attrs_step {α : Type _} (typedRead : String → Option α) (stringRead : String → α)
    (acc : AttrsResult α) (key : String) : Except String (AttrsResult α) :=
  if strHasSub "/Dims" key then .ok acc
  else
    let val := readVal typedRead stringRead key
    if strHasSub "/" key then
      match strSplitSlash key with
      | [v, a] => .ok ⟨acc.varAttrs ++ [(v, a, val)], acc.globalAttrs⟩
      | _ => .error key
    else if strStarts "_DIM_" key then .ok acc
    else .ok ⟨acc.varAttrs, acc.globalAttrs ++ [(key, val)]⟩

/-- `r_attrs(adios2f)`: the per-key classification folded over the available
attribute keys, starting from empty maps. -/
def r_attrs {α : Type _} (typedRead : String → Option α) (stringRead : String → α)
    (keys : List String) : Except String (AttrsResult α) :=
  keys.foldlM (r_attrs_step typedRead stringRead) ⟨[], []⟩

/-- Closed form of the variable-bound attributes `r_attrs` collects. -/
def varAttrsOf {α : Type _} (typedRead : String → Option α) (stringRead : String → α)
    (keys : List String) : List (String × String × α) :=
  keys.filterMap (fun k =>
    if strHasSub "/Dims" k then none
    else if strHasSub "/" k then
      match strSplitSlash k with
      | [v, a] => some (v, a, readVal typedRead stringRead k)
      | _ => none
    else none)

/-- Closed form of the global attributes `r_attrs` collects. -/
def globalAttrsOf {α : Type _} (typedRead : String → Option α) (stringRead : String → α)
    (keys : List String) : List (String × α) :=
  keys.filterMap (fun k =>
    if strHasSub "/Dims" k then none
    else if strHasSub "/" k then none
    else if strStarts "_DIM_" k then none
    else some (k, readVal typedRead stringRead k))

/-- The `dim_lens` comprehension of `r_metadata`: every attribute key
starting with `"_DIM_"` contributes dimension `key[5:]` with the integer
parse of the attribute's recorded `Value` string. -/
def dim_lens (toInt : String → ℕ) (attrs : List (String × String)) :
    List (String × ℕ) :=
  (attrs.filter (fun p => strStarts "_DIM_" p.1)).map
    (fun p => (p.1.drop 5, toInt p.2))

/-- The per-variable dimension list of `r_metadata`:
`dims = adios2f.read_attribute_string("Dims", var); dims.reverse()`. -/
def r_metadata_var_dims (readDims : String → List String) (var : String) :
    List String :=
  (readDims var).reverse

/-- The `typemap` dict of `r_metadata` as a lookup; a missing key is a
`KeyError` in Python, modelled as `none`. -/
def typemap (t : String) : Option String :=
  if t = "float" then some "f"
  else if t = "int32_t" then some "i"
  else if t = "string" then some "c"
  else none

/-- The `var_types` loop of `r_metadata`: every variable's source type tag
mapped through `typemap`, failing with the offending tag on a missing key. -/
def var_types (vars : List (String × String)) :
    Except String (List (String × String)) :=
  vars.mapM (fun p =>
    match typemap p.2 with
    | some t => Except.ok (p.1, t)
    | none => Except.error p.2)

/-- `create_nc_dims(netcdff, num_steps, dim_lens)`: the `"Time"` dimension
of size `num_steps` is created first, then one dimension per entry of
`dim_lens`. -/
def create_nc_dims (numSteps : ℕ) (dimLens : List (String × ℕ)) :
    List (String × ℕ) :=
  ("Time", numSteps) :: dimLens

/-- `create_nc_vars(netcdff, var_names, var_types, var_dims)`: one
destination variable per name, declared with its mapped type and exactly its
`var_dims` dimension-name list. -/
def create_nc_vars (varNames : List String) (varTypes : String → String)
    (varDims : String → List String) : List (String × String × List String) :=
  varNames.map (fun v => (v, varTypes v, varDims v))

/-- The destination schema: the dimensions and variables declared so far. -/
structure NCFile where
  dims : List (String × ℕ)
  vars : List (String × String × List String)
deriving DecidableEq

/-- The metadata-then-schema prefix of `convert`: `r_attrs` and `r_metadata`
(whose `typemap` lookups can raise) run first, and only if they succeed are
`create_nc_dims` and `create_nc_vars` executed; a failure aborts with the
destination schema still empty. -/
def convertSchema {α : Type _} (typedRead : String → Option α)
    (stringRead : String → α) (toInt : String → ℕ)
    (attrs : List (String × String)) (numSteps : ℕ)
    (varsList : List (String × String)) (readDims : String → List String) :
    Except (String × NCFile) NCFile :=
  match r_attrs typedRead stringRead (attrs.map Prod.fst) with
  | .error e => .error (e, ⟨[], []⟩)
  | .ok _ =>
    match var_types varsList with
    | .error e => .error (e, ⟨[], []⟩)
    | .ok vts =>
      .ok ⟨create_nc_dims numSteps (dim_lens toInt attrs),
           create_nc_vars (varsList.map Prod.fst)
             (fun v => ((vts.lookup v).getD ""))
             (r_metadata_var_dims readDims)⟩

theorem argmaxIdx_lt_length (l : List ℕ) (h : l ≠ []) : argmaxIdx l < l.length := by
  induction l with
  | nil => exact absurd rfl h
  | cons x xs ih =>
    by_cases hxs : xs = []
    · subst hxs
      simp [argmaxIdx]
    · simp only [argmaxIdx, List.length_cons]
      split
      · exact Nat.succ_lt_succ (ih hxs)
      · exact Nat.succ_pos _

theorem getD_le_argmax (l : List ℕ) (i : ℕ) :
    l.getD i 0 ≤ l.getD (argmaxIdx l) 0 := by
  induction l generalizing i with
  | nil => simp
  | cons x xs ih =>
    simp only [argmaxIdx]
    split
    · cases i with
      | zero =>
        simp only [List.getD_cons_zero, List.getD_cons_succ]
        omega
      | succ k =>
        simp only [List.getD_cons_succ]
        exact ih k
    · cases i with
      | zero => simp
      | succ k =>
        simp only [List.getD_cons_zero, List.getD_cons_succ]
        calc xs.getD k 0 ≤ xs.getD (argmaxIdx xs) 0 := ih k
          _ ≤ x := by omega

theorem zerosLike_getD (shape : List ℕ) (i : ℕ) : (zerosLike shape).getD i 0 = 0 := by
  induction shape generalizing i with
  | nil => simp [zerosLike]
  | cons x xs ih =>
    cases i with
    | zero => simp [zerosLike]
    | succ k =>
      simp only [zerosLike, List.map_cons, List.getD_cons_succ]
      exact ih k

theorem zerosLike_length (shape : List ℕ) : (zerosLike shape).length = shape.length :=
  List.length_map _ _

theorem getD_set_self (l : List ℕ) (i v : ℕ) (h : i < l.length) :
    (l.set i v).getD i 0 = v := by
  simp [List.getD_eq_getElem?_getD, List.getElem?_set_self, h]

theorem getD_set_other (l : List ℕ) (i j v : ℕ) (h : i ≠ j) :
    (l.set i v).getD j 0 = l.getD j 0 := by
  simp [List.getD_eq_getElem?_getD, List.getElem?_set_ne h]

theorem locate_disjoint (L W r1 r2 : ℕ) (h12 : r1 < r2) (h2 : r2 < W) :
    locStart L W r1 + locCount L W r1 ≤ locStart L W r2 := by
  have hr1 : r1 ≠ W - 1 := by omega
  rw [locStart_eq, locCount_eq, locStart_eq, if_neg hr1]
  have hmul : L / W * (r1 + 1) ≤ L / W * r2 :=
    Nat.mul_le_mul_left _ (by omega)
  have hsucc : L / W * (r1 + 1) = L / W * r1 + L / W := Nat.mul_succ _ _
  omega

theorem locate_ub (L W r : ℕ) (hW : 1 ≤ W) (hr : r < W) :
    locStart L W r + locCount L W r ≤ L := by
  have hdm : W * (L / W) + L % W = L := Nat.div_add_mod L W
  rw [locStart_eq, locCount_eq]
  have hcomm : L / W * W = W * (L / W) := Nat.mul_comm _ _
  by_cases h : r = W - 1
  · subst h
    rw [if_pos rfl]
    have h1 : L / W * (W - 1) + L / W = L / W * W := by
      rw [← Nat.mul_succ]
      congr 1
      omega
    omega
  · rw [if_neg h]
    have hmul : L / W * (r + 1) ≤ L / W * W :=
      Nat.mul_le_mul_left _ (by omega)
    have hsucc : L / W * (r + 1) = L / W * r + L / W := Nat.mul_succ _ _
    omega

theorem locate_cover (L W x : ℕ) (hW : 1 ≤ W) (hx : x < L) :
    ∃ r, r < W ∧ locStart L W r ≤ x ∧ x < locStart L W r + locCount L W r := by
  have hdm : W * (L / W) + L % W = L := Nat.div_add_mod L W
  by_cases hq : L / W = 0
  · rw [hq, Nat.mul_zero] at hdm
    refine ⟨W - 1, by omega, ?_, ?_⟩
    · rw [locStart_eq, hq]
      omega
    · rw [locStart_eq, locCount_eq, if_pos rfl, hq]
      simp only [Nat.zero_mul, Nat.zero_add]
      omega
  · have hq0 : 0 < L / W := Nat.pos_of_ne_zero hq
    by_cases hr0 : x / (L / W) < W - 1
    · refine ⟨x / (L / W), by omega, ?_, ?_⟩
      · rw [locStart_eq, Nat.mul_comm]
        exact Nat.div_mul_le_self x (L / W)
      · rw [locStart_eq, locCount_eq, if_neg (by omega)]
        have hxdm : L / W * (x / (L / W)) + x % (L / W) = x := Nat.div_add_mod x (L / W)
        have hmod : x % (L / W) < L / W := Nat.mod_lt x hq0
        have hcomm : x / (L / W) * (L / W) = L / W * (x / (L / W)) := Nat.mul_comm _ _
        omega
    · refine ⟨W - 1, by omega, ?_, ?_⟩
      · rw [locStart_eq]
        have h1 : L / W * (W - 1) ≤ L / W * (x / (L / W)) :=
          Nat.mul_le_mul_left _ (by omega)
        have hxdm : L / W * (x / (L / W)) + x % (L / W) = x := Nat.div_add_mod x (L / W)
        omega
      · rw [locStart_eq, locCount_eq, if_pos rfl]
        have h1 : L / W * (W - 1) + L / W = L / W * W := by
          rw [← Nat.mul_succ]
          congr 1
          omega
        have hcomm : L / W * W = W * (L / W) := Nat.mul_comm _ _
        omega

theorem decomp_eq_of_large (shape : List ℕ) (rank size : ℕ)
    (hL : 50 ≤ shape.getD (argmaxIdx shape) 0) :
    decomp shape rank size =
      ((zerosLike shape).set (argmaxIdx shape)
         (locStart (shape.getD (argmaxIdx shape) 0) size rank),
       shape.set (argmaxIdx shape)
         (locCount (shape.getD (argmaxIdx shape) 0) size rank)) := by
  unfold decomp
  rw [if_neg (by omega)]
  rfl

/-- C1: for a variable whose largest axis has length `L ≥ 50` and world size
`W ≥ 1`, `decomp`/`Locate` give each rank `r` a contiguous block of
`⌊L/W⌋` elements starting at `⌊L/W⌋·r`, except the last rank whose count is
`⌊L/W⌋ + L % W`; the ranks' intervals are pairwise disjoint, their union is
exactly `[0, L)`, every other axis keeps start `0` and full length, and the
split axis really is a largest one. -/
theorem decomp_partition (shape : List ℕ) (W : ℕ) (hW : 1 ≤ W)
    (hL : 50 ≤ shape.getD (argmaxIdx shape) 0) :
    (∀ r, r < W →
      (decomp shape r W).1 =
        (zerosLike shape).set (argmaxIdx shape)
          (shape.getD (argmaxIdx shape) 0 / W * r) ∧
      (decomp shape r W).2 =
        shape.set (argmaxIdx shape)
          (shape.getD (argmaxIdx shape) 0 / W +
            if r = W - 1 then shape.getD (argmaxIdx shape) 0 % W else 0)) ∧
    (∀ r1 r2, r1 < r2 → r2 < W →
      locStart (shape.getD (argmaxIdx shape) 0) W r1 +
        locCount (shape.getD (argmaxIdx shape) 0) W r1 ≤
        locStart (shape.getD (argmaxIdx shape) 0) W r2) ∧
    (∀ x, x < shape.getD (argmaxIdx shape) 0 ↔
      ∃ r, r < W ∧ locStart (shape.getD (argmaxIdx shape) 0) W r ≤ x ∧
        x < locStart (shape.getD (argmaxIdx shape) 0) W r +
          locCount (shape.getD (argmaxIdx shape) 0) W r) ∧
    (∀ r, r < W → ∀ i, i ≠ argmaxIdx shape →
      (decomp shape r W).1.getD i 0 = 0 ∧
      (decomp shape r W).2.getD i 0 = shape.getD i 0) ∧
    (∀ i, shape.getD i 0 ≤ shape.getD (argmaxIdx shape) 0) := by
  refine ⟨?_, ?_, ?_, ?_, ?_⟩
  · intro r _
    rw [decomp_eq_of_large shape r W hL]
    exact ⟨rfl, by rw [locCount_eq]⟩
  · intro r1 r2 h12 h2
    exact locate_disjoint _ W r1 r2 h12 h2
  · intro x
    constructor
    · intro hx
      exact locate_cover _ W x hW hx
    · rintro ⟨r, hr, hle, hlt⟩
      exact lt_of_lt_of_le hlt (locate_ub _ W r hW hr)
  · intro r _ i hi
    rw [decomp_eq_of_large shape r W hL]
    constructor
    · rw [getD_set_other _ _ _ _ (Ne.symm hi), zerosLike_getD]
    · rw [getD_set_other _ _ _ _ (Ne.symm hi)]
  · intro i
    exact getD_le_argmax shape i

theorem decomp_partition_witness :
    1 ≤ 2 ∧ 50 ≤ ([100, 4] : List ℕ).getD (argmaxIdx [100, 4]) 0 ∧
    (∀ r, r < 2 →
      (decomp [100, 4] r 2).1 =
        (zerosLike [100, 4]).set (argmaxIdx [100, 4])
          (([100, 4] : List ℕ).getD (argmaxIdx [100, 4]) 0 / 2 * r) ∧
      (decomp [100, 4] r 2).2 =
        ([100, 4] : List ℕ).set (argmaxIdx [100, 4])
          (([100, 4] : List ℕ).getD (argmaxIdx [100, 4]) 0 / 2 +
            if r = 2 - 1 then ([100, 4] : List ℕ).getD (argmaxIdx [100, 4]) 0 % 2 else 0)) :=
  ⟨by decide, by decide, (decomp_partition [100, 4] 2 (by decide) (by decide)).1⟩

/-- C5: for a variable whose largest axis has length strictly below 50, and
any rank and world size, `decomp` returns the all-zero start vector and the
full shape as count: every rank computes the identical full-range plan. -/
theorem decomp_small_full_range (shape : List ℕ) (rank size : ℕ)
    (h : ∀ x ∈ shape, x < 50) :
    decomp shape rank size = (zerosLike shape, shape) := by
  have hmax : shape.getD (argmaxIdx shape) 0 < 50 := by
    rcases Nat.lt_or_ge (argmaxIdx shape) shape.length with hl | hl
    · have hmem : shape.getD (argmaxIdx shape) 0 ∈ shape := by
        rw [List.getD_eq_getElem?_getD, List.getElem?_eq_getElem hl]
        exact List.getElem_mem hl
      exact h _ hmem
    · rw [List.getD_eq_getElem?_getD, List.getElem?_eq_none (by omega)]
      simp
  unfold decomp
  rw [if_pos hmax]

theorem decomp_small_full_range_witness :
    (∀ x ∈ ([10, 20, 3] : List ℕ), x < 50) ∧
    decomp [10, 20, 3] 1 4 = (zerosLike [10, 20, 3], [10, 20, 3]) :=
  ⟨by decide, decomp_small_full_range [10, 20, 3] 1 4 (by decide)⟩

theorem decomp_eq_of_small (shape : List ℕ) (rank size : ℕ)
    (h : shape.getD (argmaxIdx shape) 0 < 50) :
    decomp shape rank size = (zerosLike shape, shape) := by
  unfold decomp
  rw [if_pos h]

theorem decomp_count_length (shape : List ℕ) (rank size : ℕ) :
    (decomp shape rank size).2.length = shape.length := by
  by_cases h : shape.getD (argmaxIdx shape) 0 < 50
  · rw [decomp_eq_of_small _ _ _ h]
  · rw [decomp_eq_of_large _ _ _ (by omega)]
    exact List.length_set _ _ _

theorem foldl_const {α β : Type _} (l : List β) (init : α) :
    l.foldl (fun b _ => b) init = init := by
  induction l generalizing init with
  | nil => rfl
  | cons x xs ih => exact ih init

/-- C9: in the parallel copy path, a non-string variable with more than 3
axes hits none of the write branches: the step loop completes without any
destination write. -/
theorem parallel_skips_high_rank {α : Type _} (shape : List ℕ) (size numSteps : ℕ)
    (d : ℕ → List ℕ → α) (dst0 : ℕ → List ℕ → α) (h : 3 < shape.length) :
    r_w_data_parallel shape size numSteps d dst0 = dst0 := by
  have hstep : ∀ (rank step : ℕ) (dst : ℕ → List ℕ → α),
      r_w_step_parallel shape size rank step d dst = dst := by
    intro rank step dst
    have hlen : (decomp shape rank size).2.length = shape.length :=
      decomp_count_length shape rank size
    unfold r_w_step_parallel
    rw [if_neg (by omega), if_neg (by omega)]
  have hinner : ∀ (dst : ℕ → List ℕ → α) (step : ℕ),
      (List.range size).foldl
        (fun dst2 rank => r_w_step_parallel shape size rank step d dst2) dst = dst := by
    intro dst step
    rw [List.foldl_ext _ (fun b _ => b) dst (fun a b _ => hstep b step a)]
    exact foldl_const _ dst
  unfold r_w_data_parallel
  rw [List.foldl_ext _ (fun b _ => b) dst0 (fun a b _ => hinner a b)]
  exact foldl_const _ dst0

theorem parallel_skips_high_rank_witness :
    3 < ([50, 1, 1, 1] : List ℕ).length ∧
    r_w_data_parallel [50, 1, 1, 1] 2 1 (fun _ _ => (1 : ℕ)) (fun _ _ => 0) =
      (fun _ _ => 0) :=
  ⟨by decide, parallel_skips_high_rank [50, 1, 1, 1] 2 1 _ _ (by decide)⟩

theorem inRegion_iff (start count idx : List ℕ) :
    inRegion start count idx = true ↔
      idx.length = start.length ∧ ∀ i, i < idx.length →
        start.getD i 0 ≤ idx.getD i 0 ∧
        idx.getD i 0 < start.getD i 0 + count.getD i 0 := by
  unfold inRegion
  rw [Bool.and_eq_true, beq_iff_eq, List.all_eq_true]
  constructor
  · rintro ⟨h1, h2⟩
    exact ⟨h1, fun i hi => of_decide_eq_true (h2 i (List.mem_range.mpr hi))⟩
  · rintro ⟨h1, h2⟩
    exact ⟨h1, fun i hi => decide_eq_true (h2 i (List.mem_range.mp hi))⟩

theorem inRegion_full_iff (shape idx : List ℕ) :
    inRegion (zerosLike shape) shape idx = true ↔
      idx.length = shape.length ∧
      ∀ i, i < shape.length → idx.getD i 0 < shape.getD i 0 := by
  rw [inRegion_iff, zerosLike_length]
  constructor
  · rintro ⟨h1, h2⟩
    refine ⟨h1, fun i hi => ?_⟩
    have := h2 i (by omega)
    rw [zerosLike_getD] at this
    omega
  · rintro ⟨h1, h2⟩
    refine ⟨h1, fun i hi => ?_⟩
    rw [zerosLike_getD]
    have := h2 i (by omega)
    omega

theorem inRegion_decomp_iff (shape : List ℕ) (m s c : ℕ) (hm : m < shape.length)
    (idx : List ℕ) :
    inRegion ((zerosLike shape).set m s) (shape.set m c) idx = true ↔
      idx.length = shape.length ∧
      (∀ i, i < shape.length → i ≠ m → idx.getD i 0 < shape.getD i 0) ∧
      s ≤ idx.getD m 0 ∧ idx.getD m 0 < s + c := by
  have hmz : m < (zerosLike shape).length := by rw [zerosLike_length]; exact hm
  rw [inRegion_iff, List.length_set, zerosLike_length]
  constructor
  · rintro ⟨h1, h2⟩
    refine ⟨h1, fun i hi hne => ?_, ?_⟩
    · have := h2 i (by omega)
      rw [getD_set_other _ _ _ _ (Ne.symm hne), getD_set_other _ _ _ _ (Ne.symm hne),
        zerosLike_getD] at this
      omega
    · have := h2 m (by omega)
      rw [getD_set_self _ _ _ hmz, getD_set_self _ _ _ hm] at this
      exact this
  · rintro ⟨h1, h2, h3⟩
    refine ⟨h1, fun i hi => ?_⟩
    by_cases hne : i = m
    · subst hne
      rw [getD_set_self _ _ _ hmz, getD_set_self _ _ _ hm]
      exact h3
    · rw [getD_set_other _ _ _ _ (Ne.symm hne), getD_set_other _ _ _ _ (Ne.symm hne),
        zerosLike_getD]
      have := h2 i (by omega) hne
      omega

theorem inRegion_scalar_eq (shape idx : List ℕ) (h1 : shape.length = 1)
    (h2 : shape.getD 0 0 = 1) (hr : inRegion (zerosLike shape) shape idx = true) :
    idx = zerosLike shape := by
  obtain ⟨a, ha⟩ := List.length_eq_one.mp h1
  subst ha
  rw [inRegion_full_iff] at hr
  obtain ⟨hlen, hall⟩ := hr
  obtain ⟨b, hb⟩ := List.length_eq_one.mp hlen
  subst hb
  have hba : b < a := by simpa using hall 0 (by simp)
  have ha1 : a = 1 := by simpa using h2
  have hb0 : b = 0 := by omega
  subst hb0
  simp [zerosLike]

theorem serial_step_eq {α : Type _} (shape : List ℕ) (step : ℕ)
    (d : ℕ → List ℕ → α) (dst : ℕ → List ℕ → α) :
    r_w_step_serial shape step d dst =
      writeRegion dst step (zerosLike shape) shape (d step) := by
  unfold r_w_step_serial
  split
  case isTrue h =>
    funext s idx
    unfold writeRegion
    by_cases hc : s = step ∧ inRegion (zerosLike shape) shape idx = true
    · rw [if_pos hc, if_pos hc, inRegion_scalar_eq shape idx h.1 h.2 hc.2]
    · rw [if_neg hc, if_neg hc]
  case isFalse h => rfl

theorem foldl_writeRegion_ranks {α : Type _} (step : ℕ) (target : List ℕ → α)
    (startF countF : ℕ → List ℕ) (dataF : ℕ → List ℕ → α)
    (ranks : List ℕ) (dst : ℕ → List ℕ → α)
    (hagree : ∀ r ∈ ranks, ∀ idx, inRegion (startF r) (countF r) idx = true →
      dataF r idx = target idx) :
    ranks.foldl (fun acc r => writeRegion acc step (startF r) (countF r) (dataF r)) dst =
      fun s idx =>
        if s = step ∧ ∃ r ∈ ranks, inRegion (startF r) (countF r) idx = true
        then target idx else dst s idx := by
  induction ranks generalizing dst with
  | nil =>
    funext s idx
    simp
  | cons r0 rest ih =>
    rw [List.foldl_cons, ih _ (fun r hr idx hidx => hagree r (List.mem_cons_of_mem _ hr) idx hidx)]
    funext s idx
    by_cases hs : s = step
    · subst hs
      by_cases hr0 : inRegion (startF r0) (countF r0) idx = true
      · have hex : ∃ r ∈ r0 :: rest, inRegion (startF r) (countF r) idx = true :=
          ⟨r0, List.mem_cons_self r0 rest, hr0⟩
        by_cases hrest : ∃ r ∈ rest, inRegion (startF r) (countF r) idx = true
        · rw [if_pos ⟨rfl, hrest⟩, if_pos ⟨rfl, hex⟩]
        · rw [if_neg (fun hc => hrest hc.2), if_pos ⟨rfl, hex⟩]
          unfold writeRegion
          rw [if_pos ⟨rfl, hr0⟩]
          exact hagree r0 (List.mem_cons_self r0 rest) idx hr0
      · by_cases hrest : ∃ r ∈ rest, inRegion (startF r) (countF r) idx = true
        · have hex : ∃ r ∈ r0 :: rest, inRegion (startF r) (countF r) idx = true := by
            obtain ⟨r, hr, hp⟩ := hrest
            exact ⟨r, List.mem_cons_of_mem _ hr, hp⟩
          rw [if_pos ⟨rfl, hrest⟩, if_pos ⟨rfl, hex⟩]
        · have hnex : ¬∃ r ∈ r0 :: rest, inRegion (startF r) (countF r) idx = true := by
            rintro ⟨r, hr, hp⟩
            rcases List.mem_cons.mp hr with h | h
            · exact hr0 (h ▸ hp)
            · exact hrest ⟨r, h, hp⟩
          rw [if_neg (fun hc => hrest hc.2), if_neg (fun hc => hnex hc.2)]
          unfold writeRegion
          rw [if_neg (fun hc => hr0 hc.2)]
    · rw [if_neg (fun hc => hs hc.1), if_neg (fun hc => hs hc.1)]
      unfold writeRegion
      rw [if_neg (fun hc => hs hc.1)]

theorem argmaxIdx_len1 (shape : List ℕ) (h : shape.length = 1) : argmaxIdx shape = 0 := by
  obtain ⟨a, ha⟩ := List.length_eq_one.mp h
  subst ha
  simp [argmaxIdx]

theorem locCount_ne_one (L W r : ℕ) (hW : 1 ≤ W) (hL : 50 ≤ L) (hq : L / W ≠ 1) :
    locCount L W r ≠ 1 := by
  rw [locCount_eq]
  have hdm : W * (L / W) + L % W = L := Nat.div_add_mod L W
  by_cases h : r = W - 1
  · rw [if_pos h]
    intro hc
    rcases Nat.eq_zero_or_pos (L / W) with h0 | hpos
    · rw [h0] at hc hdm
      omega
    · omega
  · rw [if_neg h]
    omega

theorem parallel_step_eq_small {α : Type _} (shape : List ℕ) (size rank step : ℕ)
    (d : ℕ → List ℕ → α) (dst : ℕ → List ℕ → α)
    (hlen1 : 1 ≤ shape.length) (hlen3 : shape.length ≤ 3)
    (hL : shape.getD (argmaxIdx shape) 0 < 50) :
    r_w_step_parallel shape size rank step d dst =
      writeRegion dst step (zerosLike shape) shape (d step) := by
  have hd := decomp_eq_of_small shape rank size hL
  unfold r_w_step_parallel
  simp only [hd]
  by_cases h1 : shape.length = 1 ∧ shape.getD 0 0 = 1
  · rw [if_pos h1]
    funext s idx
    unfold writeRegion
    by_cases hc : s = step ∧ inRegion (zerosLike shape) shape idx = true
    · rw [if_pos hc, if_pos hc, inRegion_scalar_eq shape idx h1.1 h1.2 hc.2]
    · rw [if_neg hc, if_neg hc]
  · rw [if_neg h1, if_pos (by omega)]

theorem parallel_step_eq_large {α : Type _} (shape : List ℕ) (size rank step : ℕ)
    (d : ℕ → List ℕ → α) (dst : ℕ → List ℕ → α)
    (hW : 1 ≤ size) (hlen1 : 1 ≤ shape.length) (hlen3 : shape.length ≤ 3)
    (hL : 50 ≤ shape.getD (argmaxIdx shape) 0)
    (hq : ¬(shape.length = 1 ∧ shape.getD (argmaxIdx shape) 0 / size = 1)) :
    r_w_step_parallel shape size rank step d dst =
      writeRegion dst step
        ((zerosLike shape).set (argmaxIdx shape)
          (locStart (shape.getD (argmaxIdx shape) 0) size rank))
        (shape.set (argmaxIdx shape)
          (locCount (shape.getD (argmaxIdx shape) 0) size rank))
        (d step) := by
  have hd := decomp_eq_of_large shape rank size hL
  have hsetlen : (shape.set (argmaxIdx shape)
      (locCount (shape.getD (argmaxIdx shape) 0) size rank)).length = shape.length :=
    List.length_set _ _ _
  unfold r_w_step_parallel
  simp only [hd]
  by_cases h1 : shape.length = 1
  · have hm : argmaxIdx shape = 0 := argmaxIdx_len1 shape h1
    have hne : locCount (shape.getD (argmaxIdx shape) 0) size rank ≠ 1 :=
      locCount_ne_one _ _ _ hW hL (fun hq1 => hq ⟨h1, hq1⟩)
    have hc1 : ¬((shape.set (argmaxIdx shape)
        (locCount (shape.getD (argmaxIdx shape) 0) size rank)).length = 1 ∧
        (shape.set (argmaxIdx shape)
          (locCount (shape.getD (argmaxIdx shape) 0) size rank)).getD 0 0 = 1) := by
      rintro ⟨_, hb⟩
      rw [hm, getD_set_self shape 0 _ (by omega)] at hb
      rw [hm] at hne
      exact hne hb
    rw [if_neg hc1, if_pos (Or.inr (Or.inr (by rw [hsetlen]; omega)))]
  · have hc1 : ¬((shape.set (argmaxIdx shape)
        (locCount (shape.getD (argmaxIdx shape) 0) size rank)).length = 1 ∧
        (shape.set (argmaxIdx shape)
          (locCount (shape.getD (argmaxIdx shape) 0) size rank)).getD 0 0 = 1) := by
      rintro ⟨ha, _⟩
      rw [hsetlen] at ha
      exact h1 ha
    have hc2 : (shape.set (argmaxIdx shape)
        (locCount (shape.getD (argmaxIdx shape) 0) size rank)).length = 3 ∨
        (shape.set (argmaxIdx shape)
          (locCount (shape.getD (argmaxIdx shape) 0) size rank)).length = 2 ∨
        (shape.set (argmaxIdx shape)
          (locCount (shape.getD (argmaxIdx shape) 0) size rank)).length = 1 := by
      rw [hsetlen]
      omega
    rw [if_neg hc1, if_pos hc2]

theorem decomp_regions_cover (shape : List ℕ) (size : ℕ) (hW : 1 ≤ size)
    (hs : shape ≠ []) (idx : List ℕ) :
    (∃ r ∈ List.range size,
        inRegion ((zerosLike shape).set (argmaxIdx shape)
            (locStart (shape.getD (argmaxIdx shape) 0) size r))
          (shape.set (argmaxIdx shape)
            (locCount (shape.getD (argmaxIdx shape) 0) size r)) idx = true) ↔
      inRegion (zerosLike shape) shape idx = true := by
  have hm : argmaxIdx shape < shape.length := argmaxIdx_lt_length shape hs
  constructor
  · rintro ⟨r, hr, hreg⟩
    rw [List.mem_range] at hr
    rw [inRegion_decomp_iff shape _ _ _ hm idx] at hreg
    obtain ⟨h1, h2, _, h4⟩ := hreg
    rw [inRegion_full_iff]
    refine ⟨h1, fun i hi => ?_⟩
    by_cases hne : i = argmaxIdx shape
    · subst hne
      have := locate_ub (shape.getD (argmaxIdx shape) 0) size r hW hr
      omega
    · exact h2 i hi hne
  · intro hfull
    rw [inRegion_full_iff] at hfull
    obtain ⟨h1, h2⟩ := hfull
    have hx : idx.getD (argmaxIdx shape) 0 < shape.getD (argmaxIdx shape) 0 := h2 _ hm
    obtain ⟨r, hr, hle, hlt⟩ := locate_cover (shape.getD (argmaxIdx shape) 0) size
      (idx.getD (argmaxIdx shape) 0) hW hx
    refine ⟨r, List.mem_range.mpr hr, ?_⟩
    rw [inRegion_decomp_iff shape _ _ _ hm idx]
    exact ⟨h1, fun i hi _ => h2 i hi, hle, hlt⟩

theorem parallel_steps_fold_eq {α : Type _} (shape : List ℕ) (size step : ℕ)
    (d : ℕ → List ℕ → α) (dst : ℕ → List ℕ → α)
    (hW : 1 ≤ size) (hlen1 : 1 ≤ shape.length) (hlen3 : shape.length ≤ 3)
    (hq : ¬(shape.length = 1 ∧ 50 ≤ shape.getD (argmaxIdx shape) 0 ∧
      shape.getD (argmaxIdx shape) 0 / size = 1)) :
    (List.range size).foldl
      (fun dst2 rank => r_w_step_parallel shape size rank step d dst2) dst =
      writeRegion dst step (zerosLike shape) shape (d step) := by
  have hs : shape ≠ [] := by
    intro hc
    rw [hc] at hlen1
    simp at hlen1
  by_cases hL : 50 ≤ shape.getD (argmaxIdx shape) 0
  · have hq' : ¬(shape.length = 1 ∧ shape.getD (argmaxIdx shape) 0 / size = 1) :=
      fun hc => hq ⟨hc.1, hL, hc.2⟩
    rw [List.foldl_ext _
      (fun dst2 rank => writeRegion dst2 step
        ((zerosLike shape).set (argmaxIdx shape)
          (locStart (shape.getD (argmaxIdx shape) 0) size rank))
        (shape.set (argmaxIdx shape)
          (locCount (shape.getD (argmaxIdx shape) 0) size rank))
        (d step)) dst
      (fun a rank _ => parallel_step_eq_large shape size rank step d a hW hlen1 hlen3 hL hq')]
    rw [foldl_writeRegion_ranks step (d step)
      (fun rank => (zerosLike shape).set (argmaxIdx shape)
        (locStart (shape.getD (argmaxIdx shape) 0) size rank))
      (fun rank => shape.set (argmaxIdx shape)
        (locCount (shape.getD (argmaxIdx shape) 0) size rank))
      (fun _ => d step) (List.range size) dst (fun _ _ _ _ => rfl)]
    funext s idx
    simp only [writeRegion]
    have hcov := decomp_regions_cover shape size hW hs idx
    by_cases hsx : s = step ∧ inRegion (zerosLike shape) shape idx = true
    · rw [if_pos ⟨hsx.1, hcov.mpr hsx.2⟩, if_pos hsx]
    · rw [if_neg (fun hc => hsx ⟨hc.1, hcov.mp hc.2⟩), if_neg hsx]
  · push_neg at hL
    rw [List.foldl_ext _
      (fun dst2 _ => writeRegion dst2 step (zerosLike shape) shape (d step)) dst
      (fun a rank _ => parallel_step_eq_small shape size rank step d a hlen1 hlen3 hL)]
    rw [foldl_writeRegion_ranks step (d step)
      (fun _ => zerosLike shape) (fun _ => shape)
      (fun _ => d step) (List.range size) dst (fun _ _ _ _ => rfl)]
    funext s idx
    simp only [writeRegion]
    have hcov : (∃ r ∈ List.range size, inRegion (zerosLike shape) shape idx = true) ↔
        inRegion (zerosLike shape) shape idx = true := by
      constructor
      · rintro ⟨_, _, hp⟩
        exact hp
      · intro hfull
        exact ⟨0, List.mem_range.mpr (by omega), hfull⟩
    by_cases hsx : s = step ∧ inRegion (zerosLike shape) shape idx = true
    · rw [if_pos ⟨hsx.1, hcov.mpr hsx.2⟩, if_pos hsx]
    · rw [if_neg (fun hc => hsx ⟨hc.1, hcov.mp hc.2⟩), if_neg hsx]

/-- C2 (amended): for a non-string variable with 1–3 non-time axes — except
the one-axis case with largest length `L ≥ 50` and `⌊L/W⌋ = 1`, where the
parallel path falls into the mispositioned scalar-broadcast write — the
destination data produced by the parallel copy path, with the ranks' slab
writes combined, is identical to the serial copy path; string variables are
copied by textually identical code in both paths; and for a variable of
destination shape `[100, 4]` under 2 ranks, rank 0 gets start `[0,0]` count
`[50,4]` and rank 1 gets start `[50,0]` count `[50,4]`. -/
theorem parallel_eq_serial {α : Type _} (shape : List ℕ) (size numSteps : ℕ)
    (d : ℕ → List ℕ → α) (dst0 : ℕ → List ℕ → α)
    (hW : 1 ≤ size) (hlen1 : 1 ≤ shape.length) (hlen3 : shape.length ≤ 3)
    (hq : ¬(shape.length = 1 ∧ 50 ≤ shape.getD (argmaxIdx shape) 0 ∧
      shape.getD (argmaxIdx shape) 0 / size = 1)) :
    r_w_data_parallel shape size numSteps d dst0 =
      r_w_data_serial shape numSteps d dst0 ∧
    (∀ (numSteps2 : ℕ) (sdata : ℕ → α) (dstS : ℕ → Option α),
      r_w_string_parallel numSteps2 sdata dstS =
        r_w_string_serial numSteps2 sdata dstS) ∧
    decomp [100, 4] 0 2 = ([0, 0], [50, 4]) ∧
    decomp [100, 4] 1 2 = ([50, 0], [50, 4]) := by
  refine ⟨?_, fun _ _ _ => rfl, by decide, by decide⟩
  unfold r_w_data_parallel r_w_data_serial
  apply List.foldl_ext
  intro a b _
  rw [parallel_steps_fold_eq shape size b d a hW hlen1 hlen3 hq, serial_step_eq]

theorem parallel_eq_serial_witness :
    (1 ≤ 2 ∧ 1 ≤ ([100, 4] : List ℕ).length ∧ ([100, 4] : List ℕ).length ≤ 3 ∧
      ¬(([100, 4] : List ℕ).length = 1 ∧
        50 ≤ ([100, 4] : List ℕ).getD (argmaxIdx [100, 4]) 0 ∧
        ([100, 4] : List ℕ).getD (argmaxIdx [100, 4]) 0 / 2 = 1)) ∧
    r_w_data_parallel [100, 4] 2 3 (fun _ _ => (0 : ℕ)) (fun _ _ => 0) =
      r_w_data_serial [100, 4] 3 (fun _ _ => 0) (fun _ _ => 0) :=
  ⟨⟨by decide, by decide, by decide, by decide⟩,
    (parallel_eq_serial [100, 4] 2 3 _ _ (by decide) (by decide) (by decide)
      (by decide)).1⟩

/-- C2 counterexample: the equivalence fails as universally stated.  For a
4-axis variable of shape `[50,1,1,1]` under 2 ranks, the parallel path's
step loop performs no write (no branch handles 4 slice axes) while the
serial path copies the data, so the destinations differ at step 0, index
`[0,0,0,0]`. -/
theorem parallel_ne_serial_high_rank :
    r_w_data_parallel [50, 1, 1, 1] 2 1 (fun _ _ => (1 : ℕ)) (fun _ _ => 0)
        0 [0, 0, 0, 0] ≠
      r_w_data_serial [50, 1, 1, 1] 1 (fun _ _ => (1 : ℕ)) (fun _ _ => 0)
        0 [0, 0, 0, 0] := by
  decide

/-- C3: `r_metadata` produces the destination-facing dimension-name list by
reversing the variable's source-declared `Dims` list, so the destination
shape is the source-declared shape with axis order reversed; when the
source list ends with `"Time"`, the destination shape excluding the leading
Time axis is the source's spatial shape reversed. -/
theorem var_dims_reversed (readDims : String → List String)
    (dimLen : String → ℕ) (var : String) :
    r_metadata_var_dims readDims var = (readDims var).reverse ∧
    (r_metadata_var_dims readDims var).map dimLen =
      ((readDims var).map dimLen).reverse ∧
    (∀ ds, readDims var = ds ++ ["Time"] →
      r_metadata_var_dims readDims var = "Time" :: ds.reverse ∧
      ((r_metadata_var_dims readDims var).tail).map dimLen =
        (ds.map dimLen).reverse) := by
  refine ⟨rfl, ?_, ?_⟩
  · unfold r_metadata_var_dims
    exact List.map_reverse _ _
  · intro ds h
    unfold r_metadata_var_dims
    rw [h, List.reverse_append]
    exact ⟨rfl, List.map_reverse _ _⟩

theorem var_dims_reversed_witness :
    (fun _ : String => ["west_east", "south_north", "Time"]) "T" =
      ["west_east", "south_north"] ++ ["Time"] ∧
    r_metadata_var_dims (fun _ => ["west_east", "south_north", "Time"]) "T" =
      "Time" :: (["west_east", "south_north"] : List String).reverse :=
  ⟨by decide, ((var_dims_reversed (fun _ => ["west_east", "south_north", "Time"])
      (fun _ => 0) "T").2.2 ["west_east", "south_north"] (by decide)).1⟩

/-- C4 counterexample: `create_nc_vars` declares each variable with exactly
its dimension-name list — nothing is prepended — so a variable whose
(already-reversed) list is `["x"]` is declared with `["x"]`, not with
`"Time" :: ["x"]` as the claim states. -/
theorem create_nc_vars_no_prepend_cex :
    create_nc_vars ["T"] (fun _ => "f") (fun _ => ["x"]) = [("T", "f", ["x"])] ∧
    ¬(create_nc_vars ["T"] (fun _ => "f") (fun _ => ["x"]) =
        [("T", "f", "Time" :: ["x"])]) :=
  ⟨by decide, by decide⟩

/-- C4 (amended): the `"Time"` dimension of length `stepCount` is created
first in the destination, and each destination variable is declared with
exactly its already-reversed dimension-name list; `"Time"` is the outermost
axis of a variable exactly when its source `Dims` list ends with `"Time"`,
not through any prepending by `create_nc_vars`. -/
theorem time_dim_and_var_decls (numSteps : ℕ) (dimLens : List (String × ℕ))
    (varNames : List String) (varTypes : String → String)
    (readDims : String → List String) :
    (create_nc_dims numSteps dimLens).headD ("", 0) = ("Time", numSteps) ∧
    create_nc_vars varNames varTypes (r_metadata_var_dims readDims) =
      varNames.map (fun v => (v, varTypes v, (readDims v).reverse)) ∧
    (∀ v ds, readDims v = ds ++ ["Time"] →
      r_metadata_var_dims readDims v = "Time" :: ds.reverse) := by
  refine ⟨rfl, rfl, ?_⟩
  intro v ds h
  unfold r_metadata_var_dims
  rw [h, List.reverse_append]
  rfl

theorem time_dim_and_var_decls_witness :
    (fun _ : String => ["x", "Time"]) "T" = ["x"] ++ ["Time"] ∧
    r_metadata_var_dims (fun _ => ["x", "Time"]) "T" =
      "Time" :: (["x"] : List String).reverse :=
  ⟨by decide, (time_dim_and_var_decls 3 [] ["T"] (fun _ => "f")
      (fun _ => ["x", "Time"])).2.2 "T" ["x"] (by decide)⟩

theorem mapM_except_error {α β : Type _} (f : α → Except String β) (l : List α)
    (hx : ∃ x ∈ l, ∃ e, f x = .error e) :
    ∃ e, l.mapM f = .error e := by
  induction l with
  | nil =>
    obtain ⟨x, hxm, _⟩ := hx
    exact absurd hxm (List.not_mem_nil x)
  | cons a l ih =>
    rw [List.mapM_cons]
    cases hfa : f a with
    | error e =>
      exact ⟨e, rfl⟩
    | ok b =>
      obtain ⟨x, hxl, e0, he0⟩ := hx
      rcases List.mem_cons.mp hxl with h | h
      · rw [h, hfa] at he0
        exact absurd he0 (by simp)
      · obtain ⟨e, he⟩ := ih ⟨x, h, e0, he0⟩
        refine ⟨e, ?_⟩
        show l.mapM f >>= (fun ys => pure (b :: ys)) = Except.error e
        rw [he]
        rfl

/-- C6: `typemap` is a total function exactly over the three recognized
source tags, mapping float/int32_t/string to the netCDF type characters
f/i/c; any other tag fails, and the failure aborts `convert` while the
destination schema is still empty (no dimension or variable declared). -/
theorem typemap_total_and_abort {α : Type _} (typedRead : String → Option α)
    (stringRead : String → α) (toInt : String → ℕ)
    (attrs : List (String × String)) (numSteps : ℕ)
    (varsList : List (String × String)) (readDims : String → List String)
    (t : String) (h1 : t ≠ "float") (h2 : t ≠ "int32_t") (h3 : t ≠ "string")
    (hmem : ∃ v, (v, t) ∈ varsList) :
    typemap "float" = some "f" ∧ typemap "int32_t" = some "i" ∧
    typemap "string" = some "c" ∧ typemap t = none ∧
    ∃ e, convertSchema typedRead stringRead toInt attrs numSteps varsList readDims =
      .error (e, ⟨[], []⟩) := by
  have htm : typemap t = none := by
    unfold typemap
    rw [if_neg h1, if_neg h2, if_neg h3]
  refine ⟨by decide, by decide, by decide, htm, ?_⟩
  cases hra : r_attrs typedRead stringRead (attrs.map Prod.fst) with
  | error e =>
    refine ⟨e, ?_⟩
    unfold convertSchema
    rw [hra]
  | ok res =>
    obtain ⟨v, hv⟩ := hmem
    have herr : ∃ e, var_types varsList = .error e := by
      unfold var_types
      apply mapM_except_error
      refine ⟨(v, t), hv, t, ?_⟩
      simp only [htm]
    obtain ⟨e, he⟩ := herr
    refine ⟨e, ?_⟩
    unfold convertSchema
    rw [hra, he]

theorem typemap_total_and_abort_witness :
    (("double" : String) ≠ "float" ∧ ("double" : String) ≠ "int32_t" ∧
      ("double" : String) ≠ "string" ∧
      ∃ v, (v, "double") ∈ [("T", "double")]) ∧
    ∃ e, convertSchema (fun _ => some (0 : ℕ)) (fun _ => 0) (fun _ => 0)
        [("units", "K")] 3 [("T", "double")] (fun _ => []) =
      .error (e, ⟨[], []⟩) :=
  ⟨⟨by decide, by decide, by decide, ⟨"T", by decide⟩⟩,
    (typemap_total_and_abort (fun _ => some (0 : ℕ)) (fun _ => 0) (fun _ => 0)
      [("units", "K")] 3 [("T", "double")] (fun _ => []) "double"
      (by decide) (by decide) (by decide) ⟨"T", by decide⟩).2.2.2.2⟩

theorem mem_of_listStarts (pat s : List Char) (h : listStarts pat s = true) :
    ∀ c ∈ pat, c ∈ s := by
  induction pat generalizing s with
  | nil =>
    intro c hc
    exact absurd hc (List.not_mem_nil c)
  | cons p ps ih =>
    cases s with
    | nil => simp [listStarts] at h
    | cons c0 cs =>
      rw [listStarts, Bool.and_eq_true, beq_iff_eq] at h
      intro c hc
      rcases List.mem_cons.mp hc with h1 | h1
      · rw [h1, h.1]
        exact List.mem_cons_self _ _
      · exact List.mem_cons_of_mem _ (ih cs h.2 c h1)

theorem mem_of_listHasSub (pat s : List Char) (h : listHasSub pat s = true) :
    ∀ c ∈ pat, c ∈ s := by
  induction s with
  | nil =>
    exact mem_of_listStarts pat [] h
  | cons c0 cs ih =>
    rw [listHasSub, Bool.or_eq_true] at h
    intro c hc
    rcases h with h | h
    · exact mem_of_listStarts _ _ h c hc
    · exact List.mem_cons_of_mem _ (ih h c hc)

theorem listHasSub_singleton (c : Char) (s : List Char) (h : c ∈ s) :
    listHasSub [c] s = true := by
  induction s with
  | nil => exact absurd h (List.not_mem_nil c)
  | cons c0 cs ih =>
    rw [listHasSub, Bool.or_eq_true]
    rcases List.mem_cons.mp h with h1 | h1
    · left
      simp [listStarts, h1]
    · right
      exact ih h1

theorem hasDims_imp_hasSlash (k : String) (h : strHasSub "/Dims" k = true) :
    strHasSub "/" k = true := by
  unfold strHasSub at h ⊢
  have hmem : '/' ∈ k.data := mem_of_listHasSub _ _ h '/' (by decide)
  have hd : ("/" : String).data = ['/'] := by decide
  rw [hd]
  exact listHasSub_singleton '/' k.data hmem

theorem splitOnSlash_ne_nil (l : List Char) : splitOnSlash l ≠ [] := by
  cases l with
  | nil => simp [splitOnSlash]
  | cons c rest =>
    simp only [splitOnSlash]
    split <;> simp

theorem splitOnSlash_singleton (l : List Char) : ∀ a, splitOnSlash l = [a] → l = a := by
  induction l with
  | nil =>
    intro a h
    simp [splitOnSlash] at h
    exact h.symm
  | cons c rest ih =>
    intro a h
    simp only [splitOnSlash] at h
    rcases hr : splitOnSlash rest with _ | ⟨r0, rtail⟩
    · exact absurd hr (splitOnSlash_ne_nil rest)
    · rw [hr] at h
      by_cases hc : c = '/'
      · rw [if_pos hc] at h
        simp at h
      · rw [if_neg hc] at h
        simp only [List.headD_cons, List.tail_cons] at h
        injection h with h1 h2
        subst h2
        rw [ih r0 hr, h1]

theorem splitOnSlash_pair (l : List Char) : ∀ v a, splitOnSlash l = [v, a] →
    l = v ++ '/' :: a := by
  induction l with
  | nil =>
    intro v a h
    simp [splitOnSlash] at h
  | cons c rest ih =>
    intro v a h
    simp only [splitOnSlash] at h
    rcases hr : splitOnSlash rest with _ | ⟨r0, rtail⟩
    · exact absurd hr (splitOnSlash_ne_nil rest)
    · rw [hr] at h
      by_cases hc : c = '/'
      · rw [if_pos hc] at h
        injection h with h1 h2
        have hrest : rest = a := by
          apply splitOnSlash_singleton rest
          rw [hr, h2]
        rw [← h1, hc, hrest]
        rfl
      · rw [if_neg hc] at h
        simp only [List.headD_cons, List.tail_cons] at h
        injection h with h1 h2
        have hrest : rest = r0 ++ '/' :: a := by
          apply ih
          rw [hr, h2]
        rw [← h1, hrest]
        rfl

theorem strSplitSlash_pair (k v a : String) (h : strSplitSlash k = [v, a]) :
    k = joinSlash v a := by
  unfold strSplitSlash at h
  rcases hs : splitOnSlash k.data with _ | ⟨l1, ltail⟩
  · exact absurd hs (splitOnSlash_ne_nil _)
  · rw [hs] at h
    cases ltail with
    | nil => simp at h
    | cons l2 ltail2 =>
      cases ltail2 with
      | cons l3 ltail3 => simp at h
      | nil =>
        simp only [List.map_cons, List.map_nil] at h
        injection h with h1 h23
        injection h23 with h2 _
        have hv : v.data = l1 := by rw [← h1]
        have ha : a.data = l2 := by rw [← h2]
        have hdata : k.data = l1 ++ '/' :: l2 := splitOnSlash_pair k.data l1 l2 hs
        unfold joinSlash
        rw [hv, ha, ← hdata]

theorem r_attrs_fold_closed {α : Type _} (tr : String → Option α) (sr : String → α)
    (keys : List String) :
    ∀ acc : AttrsResult α,
      (∀ k ∈ keys, strHasSub "/Dims" k = true ∨ strHasSub "/" k = false ∨
        (strSplitSlash k).length = 2) →
      keys.foldlM (r_attrs_step tr sr) acc =
        .ok ⟨acc.varAttrs ++ varAttrsOf tr sr keys,
             acc.globalAttrs ++ globalAttrsOf tr sr keys⟩ := by
  induction keys with
  | nil =>
    intro acc _
    rw [List.foldlM_nil]
    simp only [varAttrsOf, globalAttrsOf, List.filterMap_nil, List.append_nil]
    rfl
  | cons k ks ih =>
    intro acc hwf
    rw [List.foldlM_cons]
    have hk := hwf k (List.mem_cons_self _ _)
    have hwf' : ∀ k2 ∈ ks, strHasSub "/Dims" k2 = true ∨ strHasSub "/" k2 = false ∨
        (strSplitSlash k2).length = 2 :=
      fun k2 hk2 => hwf k2 (List.mem_cons_of_mem _ hk2)
    by_cases hd : strHasSub "/Dims" k = true
    · have hstep : r_attrs_step tr sr acc k = .ok acc := by
        simp [r_attrs_step, hd]
      rw [hstep]
      have hva : varAttrsOf tr sr (k :: ks) = varAttrsOf tr sr ks := by
        simp [varAttrsOf, List.filterMap_cons, hd]
      have hga : globalAttrsOf tr sr (k :: ks) = globalAttrsOf tr sr ks := by
        simp [globalAttrsOf, List.filterMap_cons, hd]
      rw [hva, hga]
      exact ih acc hwf'
    · have hd' : strHasSub "/Dims" k = false := by simpa using hd
      by_cases hs : strHasSub "/" k = true
      · have hpair : ∃ v a, strSplitSlash k = [v, a] := by
          rcases hk with hk | hk | hk
          · rw [hk] at hd'
            simp at hd'
          · rw [hk] at hs
            simp at hs
          · obtain ⟨v, a, hva⟩ := List.length_eq_two.mp hk
            exact ⟨v, a, hva⟩
        obtain ⟨v, a, hsp⟩ := hpair
        have hstep : r_attrs_step tr sr acc k =
            .ok ⟨acc.varAttrs ++ [(v, a, readVal tr sr k)], acc.globalAttrs⟩ := by
          simp [r_attrs_step, hd', hs, hsp]
        rw [hstep]
        have hva : varAttrsOf tr sr (k :: ks) =
            (v, a, readVal tr sr k) :: varAttrsOf tr sr ks := by
          simp [varAttrsOf, List.filterMap_cons, hd', hs, hsp]
        have hga : globalAttrsOf tr sr (k :: ks) = globalAttrsOf tr sr ks := by
          simp [globalAttrsOf, List.filterMap_cons, hd', hs]
        rw [hva, hga]
        have := ih ⟨acc.varAttrs ++ [(v, a, readVal tr sr k)], acc.globalAttrs⟩ hwf'
        rw [List.append_assoc, List.singleton_append] at this
        exact this
      · have hs' : strHasSub "/" k = false := by simpa using hs
        by_cases hdim : strStarts "_DIM_" k = true
        · have hstep : r_attrs_step tr sr acc k = .ok acc := by
            simp [r_attrs_step, hd', hs', hdim]
          rw [hstep]
          have hva : varAttrsOf tr sr (k :: ks) = varAttrsOf tr sr ks := by
            simp [varAttrsOf, List.filterMap_cons, hd', hs']
          have hga : globalAttrsOf tr sr (k :: ks) = globalAttrsOf tr sr ks := by
            simp [globalAttrsOf, List.filterMap_cons, hd', hs', hdim]
          rw [hva, hga]
          exact ih acc hwf'
        · have hdim' : strStarts "_DIM_" k = false := by simpa using hdim
          have hstep : r_attrs_step tr sr acc k =
              .ok ⟨acc.varAttrs, acc.globalAttrs ++ [(k, readVal tr sr k)]⟩ := by
            simp [r_attrs_step, hd', hs', hdim']
          rw [hstep]
          have hva : varAttrsOf tr sr (k :: ks) = varAttrsOf tr sr ks := by
            simp [varAttrsOf, List.filterMap_cons, hd', hs']
          have hga : globalAttrsOf tr sr (k :: ks) =
              (k, readVal tr sr k) :: globalAttrsOf tr sr ks := by
            simp [globalAttrsOf, List.filterMap_cons, hd', hs', hdim']
          rw [hva, hga]
          have := ih ⟨acc.varAttrs, acc.globalAttrs ++ [(k, readVal tr sr k)]⟩ hwf'
          rw [List.append_assoc, List.singleton_append] at this
          exact this

theorem r_attrs_closed {α : Type _} (tr : String → Option α) (sr : String → α)
    (keys : List String)
    (hwf : ∀ k ∈ keys, strHasSub "/Dims" k = true ∨ strHasSub "/" k = false ∨
      (strSplitSlash k).length = 2) :
    r_attrs tr sr keys = .ok ⟨varAttrsOf tr sr keys, globalAttrsOf tr sr keys⟩ := by
  unfold r_attrs
  have := r_attrs_fold_closed tr sr keys ⟨[], []⟩ hwf
  simpa using this

theorem mem_globalAttrsOf {α : Type _} (tr : String → Option α) (sr : String → α)
    (keys : List String) (k : String) (v : α)
    (h : (k, v) ∈ globalAttrsOf tr sr keys) :
    k ∈ keys ∧ strHasSub "/" k = false ∧ strStarts "_DIM_" k = false ∧
      v = readVal tr sr k := by
  unfold globalAttrsOf at h
  rw [List.mem_filterMap] at h
  obtain ⟨a, ha, hfa⟩ := h
  by_cases h1 : strHasSub "/Dims" a = true
  · simp [h1] at hfa
  · by_cases h2 : strHasSub "/" a = true
    · simp [h1, h2] at hfa
    · by_cases h3 : strStarts "_DIM_" a = true
      · simp [h1, h2, h3] at hfa
      · simp [h1, h2, h3] at hfa
        obtain ⟨hak, hv⟩ := hfa
        subst hak
        exact ⟨ha, by simpa using h2, by simpa using h3, hv.symm⟩

theorem mem_varAttrsOf_intro {α : Type _} (tr : String → Option α) (sr : String → α)
    (keys : List String) (k v a : String)
    (hk : k ∈ keys) (hd : strHasSub "/Dims" k = false) (hs : strHasSub "/" k = true)
    (hsp : strSplitSlash k = [v, a]) :
    (v, a, readVal tr sr k) ∈ varAttrsOf tr sr keys := by
  unfold varAttrsOf
  rw [List.mem_filterMap]
  exact ⟨k, hk, by simp [hd, hs, hsp]⟩

theorem mem_globalAttrsOf_intro {α : Type _} (tr : String → Option α) (sr : String → α)
    (keys : List String) (k : String)
    (hk : k ∈ keys) (hs : strHasSub "/" k = false) (hdim : strStarts "_DIM_" k = false) :
    (k, readVal tr sr k) ∈ globalAttrsOf tr sr keys := by
  have hd : strHasSub "/Dims" k = false := by
    cases hc : strHasSub "/Dims" k
    · rfl
    · exact absurd (hasDims_imp_hasSlash k hc) (by simp [hs])
  unfold globalAttrsOf
  rw [List.mem_filterMap]
  exact ⟨k, hk, by simp [hd, hs, hdim]⟩

theorem mem_dim_lens (toInt : String → ℕ) (attrs : List (String × String))
    (p : String × String) (hp : p ∈ attrs) (h : strStarts "_DIM_" p.1 = true) :
    (p.1.drop 5, toInt p.2) ∈ dim_lens toInt attrs := by
  unfold dim_lens
  exact List.mem_map.mpr ⟨p, List.mem_filter.mpr ⟨hp, h⟩, rfl⟩

theorem r_attrs_step_inv {α : Type _} (tr : String → Option α) (sr : String → α)
    (acc acc' : AttrsResult α) (k : String)
    (hstep : r_attrs_step tr sr acc k = .ok acc')
    (hvar : ∀ e ∈ acc.varAttrs, strHasSub "/Dims" (joinSlash e.1 e.2.1) = false)
    (hglob : ∀ e ∈ acc.globalAttrs, strHasSub "/" e.1 = false) :
    (∀ e ∈ acc'.varAttrs, strHasSub "/Dims" (joinSlash e.1 e.2.1) = false) ∧
    (∀ e ∈ acc'.globalAttrs, strHasSub "/" e.1 = false) := by
  by_cases hd : strHasSub "/Dims" k = true
  · rw [show r_attrs_step tr sr acc k = .ok acc from by simp [r_attrs_step, hd]] at hstep
    injection hstep with h
    subst h
    exact ⟨hvar, hglob⟩
  · have hd' : strHasSub "/Dims" k = false := by simpa using hd
    by_cases hs : strHasSub "/" k = true
    · rcases hsp : strSplitSlash k with _ | ⟨v, _ | ⟨a, _ | ⟨c, rest⟩⟩⟩
      · simp [r_attrs_step, hd', hs, hsp] at hstep
      · simp [r_attrs_step, hd', hs, hsp] at hstep
      · have hstep2 : acc' = ⟨acc.varAttrs ++ [(v, a, readVal tr sr k)], acc.globalAttrs⟩ := by
          have h0 : r_attrs_step tr sr acc k =
              .ok ⟨acc.varAttrs ++ [(v, a, readVal tr sr k)], acc.globalAttrs⟩ := by
            simp [r_attrs_step, hd', hs, hsp]
          rw [h0] at hstep
          injection hstep with h
          exact h.symm
        subst hstep2
        constructor
        · intro e he
          rcases List.mem_append.mp he with h1 | h1
          · exact hvar e h1
          · have he2 : e = (v, a, readVal tr sr k) := List.mem_singleton.mp h1
            subst he2
            show strHasSub "/Dims" (joinSlash v a) = false
            rw [← strSplitSlash_pair k v a hsp]
            exact hd'
        · exact hglob
      · simp [r_attrs_step, hd', hs, hsp] at hstep
    · have hs' : strHasSub "/" k = false := by simpa using hs
      by_cases hdim : strStarts "_DIM_" k = true
      · rw [show r_attrs_step tr sr acc k = .ok acc from by
          simp [r_attrs_step, hd', hs', hdim]] at hstep
        injection hstep with h
        subst h
        exact ⟨hvar, hglob⟩
      · have hdim' : strStarts "_DIM_" k = false := by simpa using hdim
        have hstep2 : acc' = ⟨acc.varAttrs, acc.globalAttrs ++ [(k, readVal tr sr k)]⟩ := by
          have h0 : r_attrs_step tr sr acc k =
              .ok ⟨acc.varAttrs, acc.globalAttrs ++ [(k, readVal tr sr k)]⟩ := by
            simp [r_attrs_step, hd', hs', hdim']
          rw [h0] at hstep
          injection hstep with h
          exact h.symm
        subst hstep2
        refine ⟨hvar, ?_⟩
        intro e he
        rcases List.mem_append.mp he with h1 | h1
        · exact hglob e h1
        · have he2 : e = (k, readVal tr sr k) := List.mem_singleton.mp h1
          subst he2
          exact hs'

theorem r_attrs_fold_inv {α : Type _} (tr : String → Option α) (sr : String → α)
    (keys : List String) :
    ∀ acc res : AttrsResult α,
      keys.foldlM (r_attrs_step tr sr) acc = .ok res →
      (∀ e ∈ acc.varAttrs, strHasSub "/Dims" (joinSlash e.1 e.2.1) = false) →
      (∀ e ∈ acc.globalAttrs, strHasSub "/" e.1 = false) →
      (∀ e ∈ res.varAttrs, strHasSub "/Dims" (joinSlash e.1 e.2.1) = false) ∧
      (∀ e ∈ res.globalAttrs, strHasSub "/" e.1 = false) := by
  induction keys with
  | nil =>
    intro acc res hfold hvar hglob
    rw [List.foldlM_nil] at hfold
    injection hfold with h
    subst h
    exact ⟨hvar, hglob⟩
  | cons k ks ih =>
    intro acc res hfold hvar hglob
    rw [List.foldlM_cons] at hfold
    cases hstep : r_attrs_step tr sr acc k with
    | error e =>
      rw [hstep] at hfold
      exact absurd (show (Except.error e : Except String (AttrsResult α)) = .ok res
        from hfold) (by simp)
    | ok acc' =>
      rw [hstep] at hfold
      obtain ⟨hv', hg'⟩ := r_attrs_step_inv tr sr acc acc' k hstep hvar hglob
      exact ih acc' res hfold hv' hg'

/-- C10: every attribute key containing the substring `"/Dims"` is skipped
entirely by `r_attrs` — not only the `<var>/Dims` dimension-order hint but
also any variable-bound attribute whose name merely begins with `Dims`,
such as `<var>/DimsInfo` — so it appears neither among the variable
attributes nor among the global attributes. -/
theorem dims_keys_dropped {α : Type _} (tr : String → Option α) (sr : String → α)
    (keys : List String) (key : String) (res : AttrsResult α)
    (hres : r_attrs tr sr keys = .ok res)
    (hk : strHasSub "/Dims" key = true) :
    (∀ v a val, (v, a, val) ∈ res.varAttrs → joinSlash v a ≠ key) ∧
    (∀ val, (key, val) ∉ res.globalAttrs) := by
  unfold r_attrs at hres
  obtain ⟨hvar, hglob⟩ := r_attrs_fold_inv tr sr keys ⟨[], []⟩ res hres
    (fun e he => absurd he (List.not_mem_nil e))
    (fun e he => absurd he (List.not_mem_nil e))
  constructor
  · intro v a val hmem heq
    have h : strHasSub "/Dims" (joinSlash v a) = false := hvar (v, a, val) hmem
    rw [heq] at h
    rw [h] at hk
    simp at hk
  · intro val hmem
    have h1 : strHasSub "/" key = false := hglob (key, val) hmem
    have h2 := hasDims_imp_hasSlash key hk
    rw [h1] at h2
    simp at h2

theorem dims_keys_dropped_witness :
    r_attrs (fun _ => some (0 : ℕ)) (fun _ => 0) ["T/DimsInfo"] =
      .ok ⟨[], []⟩ ∧
    strHasSub "/Dims" "T/DimsInfo" = true ∧
    ∀ val, ("T/DimsInfo", val) ∉ (⟨[], []⟩ : AttrsResult ℕ).globalAttrs :=
  ⟨by rfl, by decide,
    (dims_keys_dropped (fun _ => some (0 : ℕ)) (fun _ => 0) ["T/DimsInfo"]
      "T/DimsInfo" ⟨[], []⟩ (by rfl) (by decide)).2⟩

/-- C7 counterexample: `"T/Dims"` contains the path separator `"/"` yet is
recorded nowhere — `r_attrs` on it yields empty variable-attribute and
global-attribute maps — refuting the claim that every key containing the
separator is recorded as a variable-bound attribute. -/
theorem slash_key_classification_cex :
    strHasSub "/" "T/Dims" = true ∧
    r_attrs (fun _ => some (0 : ℕ)) (fun _ => 0) ["T/Dims"] = .ok ⟨[], []⟩ :=
  ⟨by decide, by rfl⟩

/-- C7 (amended): `r_attrs`/`r_metadata` classify each attribute key so
that a key containing `"/"` is never a global attribute and — unless it
contains `"/Dims"`, in which case it is skipped entirely — its
single-separator split `<var>/<name>` is recorded as a variable-bound
attribute; a separator-free key starting with `"_DIM_"` is never a global
attribute and contributes only the dimension `key[5:]` with its integer
value; every remaining separator-free key becomes a global attribute. -/
theorem attr_key_classification {α : Type _} (tr : String → Option α)
    (sr : String → α) (toInt : String → ℕ) (attrs : List (String × String))
    (hwf : ∀ k ∈ attrs.map Prod.fst, strHasSub "/Dims" k = true ∨
      strHasSub "/" k = false ∨ (strSplitSlash k).length = 2) :
    r_attrs tr sr (attrs.map Prod.fst) =
      .ok ⟨varAttrsOf tr sr (attrs.map Prod.fst),
           globalAttrsOf tr sr (attrs.map Prod.fst)⟩ ∧
    (∀ k ∈ attrs.map Prod.fst, strHasSub "/" k = true →
      (∀ v, (k, v) ∉ globalAttrsOf tr sr (attrs.map Prod.fst)) ∧
      (∀ v a, strHasSub "/Dims" k = false → strSplitSlash k = [v, a] →
        (v, a, readVal tr sr k) ∈ varAttrsOf tr sr (attrs.map Prod.fst))) ∧
    (∀ p ∈ attrs, strHasSub "/" p.1 = false → strStarts "_DIM_" p.1 = true →
      (∀ v, (p.1, v) ∉ globalAttrsOf tr sr (attrs.map Prod.fst)) ∧
      (p.1.drop 5, toInt p.2) ∈ dim_lens toInt attrs) ∧
    (∀ k ∈ attrs.map Prod.fst, strHasSub "/" k = false →
      strStarts "_DIM_" k = false →
      (k, readVal tr sr k) ∈ globalAttrsOf tr sr (attrs.map Prod.fst)) := by
  refine ⟨r_attrs_closed tr sr _ hwf, ?_, ?_, ?_⟩
  · intro k hk hslash
    constructor
    · intro v hmem
      have h := (mem_globalAttrsOf tr sr _ k v hmem).2.1
      rw [h] at hslash
      simp at hslash
    · intro v a hd hsp
      exact mem_varAttrsOf_intro tr sr _ k v a hk hd hslash hsp
  · intro p hp hs hdim
    constructor
    · intro v hmem
      have h := (mem_globalAttrsOf tr sr _ p.1 v hmem).2.2.1
      rw [h] at hdim
      simp at hdim
    · exact mem_dim_lens toInt attrs p hp hdim
  · intro k hk hs hdim
    exact mem_globalAttrsOf_intro tr sr _ k hk hs hdim

theorem attr_key_classification_witness :
    (∀ k ∈ ([("T/mean", "1"), ("_DIM_lat", "5"), ("units", "K")] :
        List (String × String)).map Prod.fst,
      strHasSub "/Dims" k = true ∨ strHasSub "/" k = false ∨
      (strSplitSlash k).length = 2) ∧
    r_attrs (fun _ => some (0 : ℕ)) (fun _ => 0)
        (([("T/mean", "1"), ("_DIM_lat", "5"), ("units", "K")] :
          List (String × String)).map Prod.fst) =
      .ok ⟨varAttrsOf (fun _ => some (0 : ℕ)) (fun _ => 0)
            (([("T/mean", "1"), ("_DIM_lat", "5"), ("units", "K")] :
              List (String × String)).map Prod.fst),
           globalAttrsOf (fun _ => some (0 : ℕ)) (fun _ => 0)
            (([("T/mean", "1"), ("_DIM_lat", "5"), ("units", "K")] :
              List (String × String)).map Prod.fst)⟩ :=
  ⟨by decide, (attr_key_classification (fun _ => some (0 : ℕ)) (fun _ => 0)
      (fun _ => 0) [("T/mean", "1"), ("_DIM_lat", "5"), ("units", "K")]
      (by decide)).1⟩

/-- C8: for every attribute key, the typed read is attempted first and used
when it succeeds; whenever it fails the value is obtained by the
string-typed read instead, and this fallback is a normal result — the
metadata phase still returns successfully (it can fail only on a key with
two or more separators, never on a value read). -/
theorem typed_read_fallback {α : Type _} (tr : String → Option α) (sr : String → α)
    (key : String) (keys : List String)
    (hwf : ∀ k ∈ keys, strHasSub "/Dims" k = true ∨ strHasSub "/" k = false ∨
      (strSplitSlash k).length = 2) :
    (∀ v, tr key = some v → readVal tr sr key = v) ∧
    (tr key = none → readVal tr sr key = sr key) ∧
    ∃ res, r_attrs tr sr keys = .ok res := by
  refine ⟨?_, ?_, ⟨_, r_attrs_closed tr sr keys hwf⟩⟩
  · intro v hv
    unfold readVal
    rw [hv]
  · intro hv
    unfold readVal
    rw [hv]

theorem typed_read_fallback_witness :
    (∀ k ∈ (["T/mean", "units"] : List String), strHasSub "/Dims" k = true ∨
      strHasSub "/" k = false ∨ (strSplitSlash k).length = 2) ∧
    ((fun _ : String => (none : Option ℕ)) "units" = none →
      readVal (fun _ => (none : Option ℕ)) (fun _ => 7) "units" = 7) ∧
    ∃ res, r_attrs (fun _ => (none : Option ℕ)) (fun _ => 7)
      ["T/mean", "units"] = .ok res :=
  ⟨by decide,
   (typed_read_fallback (fun _ => none) (fun _ => 7) "units" ["T/mean", "units"]
     (by decide)).2.1,
   (typed_read_fallback (fun _ => none) (fun _ => 7) "units" ["T/mean", "units"]
     (by decide)).2.2⟩

end Convert
